import Mathlib

/-!
Verification of the rhythm-analysis service (`rhythm_analyzer.py`).

The Python source is shallowly embedded over exact rationals: every float
becomes a `ℚ`, every list of floats a `List ℚ`.  Calls into numeric
libraries (librosa onset detection, scipy filters, numpy RMS of an audio
slice) are audio-dependent quantities; they are abstracted as explicit
function parameters ("oracles") of the embedded definitions, while all
decision logic, arithmetic and list manipulation is translated directly
from the source.  Python's `round` (banker's rounding), `%` on floats
(floor-based modulus), `int()` (truncation toward zero) and the stable
`list.sort` are modelled exactly.
-/

namespace MusicAnalyzer

/-- Python's `round` to an integer: round half to even (banker's rounding). -/
def pyRound (q : ℚ) : ℤ :=
  if q - ⌊q⌋ < 1/2 then ⌊q⌋
  else if 1/2 < q - ⌊q⌋ then ⌊q⌋ + 1
  else if ⌊q⌋ % 2 = 0 then ⌊q⌋ else ⌊q⌋ + 1

/-- Python's `round(x, d)`: round to `d` decimal digits, half to even. -/
def roundTo (d : ℕ) (q : ℚ) : ℚ :=
  (pyRound (q * (10:ℚ)^d) : ℚ) / (10:ℚ)^d

/-- Python's `%` on floats (floor-based modulus, for a nonzero modulus). -/
def pymod (x m : ℚ) : ℚ := x - m * ⌊x / m⌋

/-- Python's `int()` on a float: truncation toward zero. -/
def pyint (q : ℚ) : ℤ := if q < 0 then -⌊-q⌋ else ⌊q⌋

/-- Insert `a` into an already key-sorted list, after every element whose
key is `≤ key a` (the insertion step of a stable sort). -/
def insort (key : α → ℚ) (a : α) : List α → List α
  | [] => [a]
  | b :: bs => if key b ≤ key a then b :: insort key a bs else a :: b :: bs

/-- Python's stable `list.sort(key=...)`, modelled as a stable insertion
sort: elements are processed left to right and each is placed after all
elements with a key `≤` its own, so equal-key elements keep their
original relative order — exactly the contract of Python's sort. -/
def pysort (key : α → ℚ) (l : List α) : List α :=
  l.foldl (fun acc a => insort key a acc) []

/-- Successive differences, `numpy.diff`. -/
def diffs : List ℚ → List ℚ
  | a :: b :: rest => (b - a) :: diffs (b :: rest)
  | _ => []

/-- `numpy.median`: middle element of the sorted list, or the mean of the
two middle elements for an even length (junk value `0` on `[]`, which the
source never hits). -/
def median (l : List ℚ) : ℚ :=
  let s := pysort id l
  let n := s.length
  if n = 0 then 0
  else if n % 2 = 1 then s.getD (n / 2) 0
  else (s.getD (n / 2 - 1) 0 + s.getD (n / 2) 0) / 2

/-- A drum hit (`DrumHit` in the source): time, drum type, confidence and
an optional feature vector. -/
structure DrumHit where
  time : ℚ
  type : String
  confidence : ℚ
  features : Option (List ℚ)
  deriving DecidableEq, Repr

/-- One downbeat entry `{'time': t, 'beat_position': p}`. -/
structure Downbeat where
  time : ℚ
  beat_position : ℤ
  deriving DecidableEq, Repr

/-- The beat grid (`BeatResult` in the source). -/
structure BeatResult where
  bpm : ℚ
  bpm_confidence : ℚ
  beats : List ℚ
  downbeats : List Downbeat
  time_signature : ℤ
  deriving DecidableEq, Repr

/-! ## Half-time correction (`correct_half_time_spectral`, source lines 468-582) -/

/-- Beat interpolation used by both half-time rules: for each pair of
consecutive beats append the first beat and the midpoint, then append the
final beat (source lines 493-499 and 556-562). -/
def interpolateBeats : List ℚ → List ℚ
  | [] => []
  | [b] => [b]
  | b :: b2 :: rest => b :: (b + b2) / 2 :: interpolateBeats (b2 :: rest)

/-- Downbeat rebuild used by both half-time rules: entry `i` gets time
`new_beats[i]` and `beat_position = (i % 4) + 1` (source lines 501-504). -/
def rebuildDownbeats (beats : List ℚ) : List Downbeat :=
  beats.enum.map (fun p => ⟨p.2, (p.1 : ℤ) % 4 + 1⟩)

/-- The skip gate of the half-time check: `bpm >= 100 or confidence > 0.7`
(source line 482). -/
def halfTimeGate (bpm conf : ℚ) : Bool := bpm ≥ 100 || conf > 7/10

/-- The Rule A condition: `bpm < 95 and confidence < 0.5` (source line 488). -/
def ruleACond (bpm conf : ℚ) : Bool := bpm < 95 && conf < 1/2

/-- The beat result produced when Rule A fires (source lines 489-512). -/
def ruleAResult (r : BeatResult) : BeatResult :=
  { bpm := r.bpm * 2
    bpm_confidence := min (r.bpm_confidence * 13/10) (7/10)
    beats := interpolateBeats r.beats
    downbeats := rebuildDownbeats (interpolateBeats r.beats)
    time_signature := r.time_signature }

/-- The beat result produced when Rule B fires (source lines 551-576);
same doubling, but the confidence is `min(confidence * 1.2, 0.85)`. -/
def ruleBResult (r : BeatResult) : BeatResult :=
  { bpm := r.bpm * 2
    bpm_confidence := min (r.bpm_confidence * 12/10) (85/100)
    beats := interpolateBeats r.beats
    downbeats := rebuildDownbeats (interpolateBeats r.beats)
    time_signature := r.time_signature }

/-- `correct_half_time_spectral` (source lines 468-582).  `duration` is
`len(y) / sr` and `hihatOnsetCount` abstracts the number of onsets librosa
detects in the 5-15 kHz bandpassed waveform (source lines 526-544); both
are audio-dependent and enter the function only through the density ratio.
The `try/except` wrapper (whose handler returns the input unchanged)
guards only these library calls and is absorbed into the oracle. -/
def correct_half_time_spectral (sr : ℤ) (duration : ℚ) (hihatOnsetCount : ℕ)
    (r : BeatResult) : BeatResult :=
  if halfTimeGate r.bpm r.bpm_confidence then r
  else if ruleACond r.bpm r.bpm_confidence then ruleAResult r
  else
    let nyq : ℚ := (sr : ℚ) / 2
    let low : ℚ := min (5000 / nyq) (9/10)
    let high : ℚ := min (15000 / nyq) (99/100)
    if low ≥ high then r
    else
      let bar_duration : ℚ := 60 / r.bpm * 4
      let num_bars : ℚ := duration / bar_duration
      let expected_total : ℚ := num_bars * 8
      let density_ratio : ℚ := (hihatOnsetCount : ℚ) / (expected_total + 1)
      if density_ratio > 3/2 then ruleBResult r else r

/-! ## Bandpass filter constructor (source lines 712-722, 871-885 and
5804-5815: three textually near-identical local `bandpass_filter`
definitions) -/

/-- `bandpass_filter(data, lowcut, highcut, fs, order=4)`.  The actual
Butterworth design and application (`butter` + `sosfilt`) is abstracted as
`applyF`, which returns `none` when the scipy call raises (the `except`
branch) or, in the variants of lines 871-885 and 5804-5815, when the
filtered output is not finite — in all those cases the source returns the
input unchanged. -/
def bandpass_filter (applyF : List ℚ → Option (List ℚ))
    (data : List ℚ) (lowcut highcut fs : ℚ) : List ℚ :=
  let nyq : ℚ := 1/2 * fs
  let low : ℚ := max (lowcut / nyq) (1/100)
  let high : ℚ := min (highcut / nyq) (99/100)
  if low ≥ high then data
  else
    match applyF data with
    | none => data
    | some filtered => filtered

/-! ## Quantizer (`quantize_to_grid`, source lines 1531-1597) -/

/-- One grid-position record (source lines 1589-1595). -/
structure GridPos where
  bar : ℤ
  beat : ℤ
  subbeat : ℤ
  original_time : ℚ
  quantized_time : ℚ
  deriving DecidableEq, Repr

/-- The quantized time of a single hit (source lines 1560-1574). -/
def quantizeHitTime (bpm downbeat_offset swing quantize_strength : ℚ)
    (subdivision : ℤ) (t : ℚ) : ℚ :=
  let beat_duration : ℚ := 60 / bpm
  let grid_duration : ℚ := beat_duration / subdivision
  let swing_offset : ℚ := (swing / 100 - 1/2) * grid_duration
  let rel_time : ℚ := t - downbeat_offset
  let grid_index : ℤ := pyRound (rel_time / grid_duration)
  let grid_time : ℚ :=
    if grid_index % 2 = 1 then grid_index * grid_duration + swing_offset
    else grid_index * grid_duration
  let grid_time := grid_time + downbeat_offset
  t + (grid_time - t) * quantize_strength

/-- The grid address of a single hit (source lines 1576-1580): Python's
`//` is floor division and `int()` truncates toward zero, applied here to
nonnegative moduli. -/
def gridPosOf (bpm downbeat_offset quantize_strength swing : ℚ)
    (subdivision : ℤ) (t : ℚ) : GridPos :=
  let beat_duration : ℚ := 60 / bpm
  let rel_time : ℚ := t - downbeat_offset
  let total_beats : ℚ := rel_time / beat_duration
  { bar := pyint ⌊total_beats / 4⌋ + 1
    beat := pyint (pymod total_beats 4) + 1
    subbeat := pyint (pymod total_beats 1 * subdivision) + 1
    original_time := t
    quantized_time := quantizeHitTime bpm downbeat_offset swing quantize_strength subdivision t }

/-- `quantize_to_grid` (source lines 1531-1597): one output hit and one
grid record per input hit, in order; only the hit's time changes. -/
def quantize_to_grid (hits : List DrumHit) (bpm downbeat_offset : ℚ)
    (swing quantize_strength : ℚ) (subdivision : ℤ) :
    List DrumHit × List GridPos :=
  (hits.map (fun h =>
      { h with time := quantizeHitTime bpm downbeat_offset swing quantize_strength subdivision h.time }),
   hits.map (fun h => gridPosOf bpm downbeat_offset quantize_strength swing subdivision h.time))

/-! ## Swing estimation (`detect_swing`, source lines 1475-1528) -/

/-- The body of each beat interval of the `detect_swing` loop (source
lines 1505-1517): take every hit time in `[beat_start, beat_end)`, compute
its position in units of `beat_duration` (the median beat duration, line
1494), and keep `position * 100` when `0.35 < position < 0.75`. -/
def swingBody (hitTimes : List ℚ) (beat_duration : ℚ) (beat_start beat_end : ℚ) : List ℚ :=
  (hitTimes.filter (fun t => beat_start ≤ t && t < beat_end)).filterMap (fun t =>
    if 7/20 < (t - beat_start) / beat_duration ∧ (t - beat_start) / beat_duration < 3/4
    then some ((t - beat_start) / beat_duration * 100) else none)

/-- The offbeat ratios collected by `detect_swing` (source lines
1498-1517): the loop runs over `i in range(len(beats) - 1)` with
`beat_start = beats[i]` and `beat_end = beats[i + 1]`. -/
def swingRatios (hitTimes : List ℚ) (beats : List ℚ) (beat_duration : ℚ) : List ℚ :=
  (List.range (beats.length - 1)).flatMap (fun i =>
    swingBody hitTimes beat_duration (beats.getD i 0) (beats.getD (i + 1) 0))

/-- `detect_swing` (source lines 1475-1528).  The `time_signature`
argument of the source is unused by its body and omitted. -/
def detect_swing (hits : List DrumHit) (beats : List ℚ) : ℚ :=
  if hits.length < 4 ∨ beats.length < 2 then 50
  else
    let beat_duration := median (diffs beats)
    let offbeat_ratios := swingRatios (hits.map (fun h => h.time)) beats beat_duration
    if offbeat_ratios.length < 2 then 50
    else max 40 (min 75 (median offbeat_ratios))

/-! ## Hit assembly and sorting in `analyze_rhythm` (source lines 2754-2804) -/

/-- The iteration order of the per-drum results dictionary built at source
line 754 and consumed at line 2793 (Python dictionaries iterate in
insertion order). -/
def drumOrder : List String := ["kick", "snare", "hihat", "clap", "tom", "perc"]

/-- `sorted(set(xs))` applied to each per-drum list at source line 851:
duplicates removed, then sorted ascending. -/
def sortedDedup (l : List ℚ) : List ℚ := pysort id l.dedup

/-- Hit construction of source lines 2791-2801: for each drum type in
dictionary order, one `DrumHit` per detected time with a constant
confidence (0.90 with a drums stem, 0.70 without) and no features. -/
def collectHits (detected : String → List ℚ) (conf : ℚ) : List DrumHit :=
  drumOrder.flatMap (fun d => (detected d).map (fun t =>
    { time := t, type := d, confidence := conf, features := none }))

/-- Source lines 2791-2804 composed with the per-drum `sorted(set(...))`
of `detect_drums_beat_aligned` (line 851): assemble the hits of the raw
per-drum detection lists and sort them by time with Python's stable sort. -/
def analyze_rhythm_hits (raw : String → List ℚ) (conf : ℚ) : List DrumHit :=
  pysort (fun h => h.time) (collectHits (fun d => sortedDedup (raw d)) conf)

/-! ## Pattern filter (`filter_hits_by_pattern`, source lines 2384-2450) -/

/-- `filter_hits_by_pattern` (source lines 2384-2450).  The static
`EXPECTED_POSITIONS` genre table lookup of lines 2413-2414 is passed in as
`expectedPositions`; a hit before the downbeat is dropped (lines
2418-2421), otherwise it is kept iff some expected beat position is within
`tolerance_ms` of its position in the bar (lines 2423-2442). -/
def filter_hits_by_pattern (expectedPositions : String → Option String → List ℚ)
    (hits : List DrumHit) (bpm downbeat_time : ℚ) (time_signature : ℤ)
    (genre : Option String) (tolerance_ms : ℚ) : List DrumHit :=
  if hits.isEmpty then []
  else
    let beat_duration : ℚ := 60 / bpm
    let bar_duration : ℚ := beat_duration * time_signature
    let tolerance_sec : ℚ := tolerance_ms / 1000
    hits.filter (fun h =>
      let time_from_downbeat := h.time - downbeat_time
      if time_from_downbeat < 0 then false
      else
        let bar_position := pymod time_from_downbeat bar_duration / beat_duration
        (expectedPositions h.type genre).any (fun p =>
          decide (|bar_position - p| * beat_duration ≤ tolerance_sec)))

/-- Stage 7 of `analyze_rhythm` (source lines 2820-2838): the filter runs
only when requested and when downbeats exist, with the first downbeat as
anchor; the pair holds the reported counters
`(hits_before_filter, hits_after_filter)` together with the final hits. -/
def analyzeFilterStage (expectedPositions : String → Option String → List ℚ)
    (hits : List DrumHit) (apply_pattern_filter : Bool) (downbeats : List Downbeat)
    (bpm : ℚ) (time_signature : ℤ) (genre : Option String) (tolerance_ms : ℚ) :
    List DrumHit × ℕ × ℕ :=
  let result :=
    if apply_pattern_filter && !downbeats.isEmpty then
      filter_hits_by_pattern expectedPositions hits bpm
        ((downbeats.headD ⟨0, 0⟩).time) time_signature genre tolerance_ms
    else hits
  (result, hits.length, result.length)

/-! ## Adaptive quiet-section rescan (`detect_adaptive`, source lines
5698-5931) -/

/-- The `target_bars` form field: the literal `"quiet"`, a parsed list of
bar numbers, or absent/unparsable (both of which scan every bar, source
lines 5788-5799). -/
inductive TargetBars where
  | quiet : TargetBars
  | explicitBars : List ℤ → TargetBars
  | allBars : TargetBars

/-- One emitted adaptive hit (source lines 5896-5906). -/
structure AdaptiveHit where
  time : ℚ
  type : String
  confidence : ℚ
  bar : ℤ
  grid_position : ℕ
  energy : ℚ
  threshold_used : ℚ
  is_quiet_bar : Bool
  deriving DecidableEq, Repr

/-- `BASE_THRESHOLDS` (source lines 5844-5851). -/
def adaptiveBaseThreshold : String → ℚ
  | "kick" => 10/1000
  | "snare" => 8/1000
  | "hihat" => 5/1000
  | "clap" => 6/1000
  | "tom" => 8/1000
  | "perc" => 4/1000
  | _ => 0

/-- The adaptive `EXPECTED_POSITIONS` 16th-note grid table (source lines
5854-5861). -/
def adaptiveExpectedPositions : String → List ℕ
  | "kick" => [0, 8]
  | "snare" => [4, 12]
  | "hihat" => [0, 2, 4, 6, 8, 10, 12, 14]
  | "clap" => [4, 12]
  | "perc" => [0, 2, 4, 6, 8, 10, 12, 14]
  | _ => []

/-- The loop context of the scan of source lines 5865-5907. -/
structure AdaptiveCtx where
  energyAt : String → ℚ → ℚ
  downbeat_offset : ℚ
  bar_duration : ℚ
  grid_duration : ℚ
  duration : ℚ
  sensitivity_boost : ℚ
  isQuiet : ℤ → Bool

/-- The body of the triple loop of source lines 5865-5907 for one
candidate `(bar_num, drum_type, grid_pos)`, threading the state
`(existing_times, new_hits)`: skip candidates outside `[0, duration)` or
within 0.03 s of a recorded time; otherwise probe the window energy
(abstracted as `ctx.energyAt`) and emit a hit when it exceeds the
(quiet-bar-boosted) threshold, recording the emitted time rounded to 3
decimals. -/
def adaptiveStep (ctx : AdaptiveCtx) (st : List ℚ × List AdaptiveHit)
    (c : ℤ × String × ℕ) : List ℚ × List AdaptiveHit :=
  let bar_num := c.1
  let drum := c.2.1
  let grid_pos := c.2.2
  let bar_start := ctx.downbeat_offset + (bar_num - 1) * ctx.bar_duration
  let is_quiet := ctx.isQuiet bar_num
  let threshold_multiplier : ℚ := if is_quiet then 1 / ctx.sensitivity_boost else 1
  let threshold := adaptiveBaseThreshold drum * threshold_multiplier
  let hit_time := bar_start + grid_pos * ctx.grid_duration
  if hit_time < 0 ∨ hit_time ≥ ctx.duration then st
  else if st.1.any (fun t => decide (|t - hit_time| < 3/100)) then st
  else
    let energy := ctx.energyAt drum hit_time
    if energy > threshold then
      (roundTo 3 hit_time :: st.1,
       st.2 ++ [{ time := roundTo 4 hit_time
                  type := drum
                  confidence := roundTo 3 (min (energy / threshold) 1)
                  bar := bar_num
                  grid_position := grid_pos
                  energy := roundTo 5 energy
                  threshold_used := roundTo 5 threshold
                  is_quiet_bar := is_quiet }])
    else st

/-- Per-bar energy analysis of source lines 5759-5784: bar numbers with
their RMS (`barRms` abstracts the RMS of the percussive waveform over the
bar's sample slice, including the empty-slice-gives-0 branch) and the
quiet flag `rms < 0.6 * median`, where the median is taken over the
positive RMS values (0.01 when there are none). -/
def adaptiveBarInfo (barRms : ℕ → ℚ) (total_bars : ℤ) : List (ℤ × ℚ × Bool) :=
  let bar_energies : List (ℤ × ℚ) :=
    (List.range total_bars.toNat).map (fun (i : ℕ) => ((i : ℤ) + 1, barRms i))
  let all_rms := (bar_energies.filter (fun e => decide (e.2 > 0))).map (fun e => e.2)
  let median_rms : ℚ := if all_rms.isEmpty then 1/100 else median all_rms
  bar_energies.map (fun e => (e.1, e.2, decide (e.2 < median_rms * 6/10)))

/-- `detect_adaptive` (source lines 5698-5931), returning the sorted
`new_hits` list of the response.  `energyAt` abstracts the 50 ms window
RMS of the per-drum bandpassed waveform (lines 5803-5841); existing hits
enter only through their `time` field (line 5747). -/
def detect_adaptive (barRms : ℕ → ℚ) (energyAt : String → ℚ → ℚ)
    (bpm downbeat_offset : ℚ) (time_signature : ℤ)
    (existing : List (ℚ × String)) (target : TargetBars)
    (sensitivity_boost : ℚ) (duration : ℚ) : List AdaptiveHit :=
  let existing_times := existing.map (fun e => roundTo 3 e.1)
  let beat_duration : ℚ := 60 / bpm
  let bar_duration : ℚ := beat_duration * time_signature
  let total_bars : ℤ := pyint (duration / bar_duration) + 1
  let barInfo := adaptiveBarInfo barRms total_bars
  let bars_to_scan : List ℤ :=
    match target with
    | .quiet => (barInfo.filter (fun b => b.2.2)).map (fun b => b.1)
    | .explicitBars l => l
    | .allBars => (List.range total_bars.toNat).map (fun i => (i : ℤ) + 1)
  let ctx : AdaptiveCtx :=
    { energyAt := energyAt
      downbeat_offset := downbeat_offset
      bar_duration := bar_duration
      grid_duration := beat_duration / 4
      duration := duration
      sensitivity_boost := sensitivity_boost
      isQuiet := fun bar_num =>
        ((barInfo.find? (fun b => b.1 = bar_num)).map (fun b => b.2.2)).getD false }
  let candidates : List (ℤ × String × ℕ) :=
    bars_to_scan.flatMap (fun bar =>
      drumOrder.flatMap (fun d =>
        (adaptiveExpectedPositions d).map (fun p => (bar, d, p))))
  pysort (fun h => h.time) (candidates.foldl (adaptiveStep ctx) (existing_times, [])).2

/-! ## Rounding lemmas -/

theorem abs_pyRound_sub_le (q : ℚ) : |(pyRound q : ℚ) - q| ≤ 1/2 := by
  have h0 : (⌊q⌋ : ℚ) ≤ q := Int.floor_le q
  have h1 : q < ⌊q⌋ + 1 := Int.lt_floor_add_one q
  unfold pyRound
  split_ifs with ha hb hc
  · rw [abs_sub_comm, abs_of_nonneg (by linarith)]
    linarith
  · have hble := le_of_lt hb
    push_cast
    rw [abs_of_nonneg (by linarith)]
    linarith
  · have hage := not_lt.mp ha
    rw [abs_sub_comm, abs_of_nonneg (by linarith)]
    linarith [not_lt.mp hb]
  · have hage := not_lt.mp ha
    push_cast
    rw [abs_of_nonneg (by linarith)]
    linarith [not_lt.mp hb]

theorem pyRound_intCast (z : ℤ) : pyRound (z : ℚ) = z := by
  unfold pyRound
  rw [Int.floor_intCast]
  norm_num

theorem pyRound_int_add {z : ℤ} {d : ℚ} (h : |d| < 1/2) : pyRound ((z : ℚ) + d) = z := by
  rcases abs_lt.mp h with ⟨hl, hr⟩
  by_cases h0 : 0 ≤ d
  · have hf : ⌊(z : ℚ) + d⌋ = z := by
      rw [Int.floor_eq_iff]
      constructor <;> push_cast <;> linarith
    unfold pyRound
    rw [hf]
    have he : (z : ℚ) + d - (z : ℚ) = d := by ring
    rw [he, if_pos hr]
  · push_neg at h0
    have hf : ⌊(z : ℚ) + d⌋ = z - 1 := by
      rw [Int.floor_eq_iff]
      constructor <;> push_cast <;> linarith
    unfold pyRound
    rw [hf]
    have he : (z : ℚ) + d - ((z - 1 : ℤ) : ℚ) = 1 + d := by push_cast; ring
    rw [he, if_neg (by linarith), if_pos (by linarith)]
    omega

theorem abs_roundTo_sub_le (d : ℕ) (q : ℚ) : |roundTo d q - q| ≤ 1 / (2 * 10 ^ d) := by
  unfold roundTo
  have hp : (0 : ℚ) < 10 ^ d := by positivity
  have h := abs_pyRound_sub_le (q * 10 ^ d)
  calc |(pyRound (q * 10 ^ d) : ℚ) / 10 ^ d - q|
      = |((pyRound (q * 10 ^ d) : ℚ) - q * 10 ^ d) / 10 ^ d| := by
        congr 1
        field_simp
        ring
    _ = |(pyRound (q * 10 ^ d) : ℚ) - q * 10 ^ d| / 10 ^ d := by
        rw [abs_div, abs_of_pos hp]
    _ ≤ (1/2) / 10 ^ d := (div_le_div_iff_of_pos_right hp).mpr h
    _ = 1 / (2 * 10 ^ d) := by ring

/-! ## Quantizer theorems (claims C5, C6, C10) -/

/-- The snapped grid time described by the specification: the nearest grid
step of duration `60 / bpm / 4`, plus the swing offset
`(swing / 100 - 0.5) * step` exactly when the step index is odd. -/
def snapTime (bpm downbeat_offset swing : ℚ) (t : ℚ) : ℚ :=
  downbeat_offset
    + (pyRound ((t - downbeat_offset) / (60 / bpm / 4)) : ℚ) * (60 / bpm / 4)
    + (if pyRound ((t - downbeat_offset) / (60 / bpm / 4)) % 2 = 1
       then (swing / 100 - 1/2) * (60 / bpm / 4) else 0)

theorem quantizeHitTime_formula (bpm down swing strength t : ℚ) :
    quantizeHitTime bpm down swing strength 4 t
      = t * (1 - strength) + snapTime bpm down swing t * strength := by
  simp only [quantizeHitTime, snapTime]
  push_cast
  split_ifs with hk
  · ring
  · ring

theorem snapTime_snap (bpm down swing : ℚ) (hbpm : 0 < bpm)
    (h0 : 0 < swing) (h1 : swing < 100) (t : ℚ) :
    snapTime bpm down swing (snapTime bpm down swing t) = snapTime bpm down swing t := by
  have hg : (0 : ℚ) < 60 / bpm / 4 := by positivity
  have hd : |swing / 100 - 1/2| < 1/2 := abs_lt.mpr ⟨by linarith, by linarith⟩
  by_cases hk : pyRound ((t - down) / (60 / bpm / 4)) % 2 = 1
  · have h2 : snapTime bpm down swing t
        = down + (pyRound ((t - down) / (60 / bpm / 4)) : ℚ) * (60 / bpm / 4)
          + (swing / 100 - 1/2) * (60 / bpm / 4) := by
      simp only [snapTime]
      rw [if_pos hk]
    rw [h2]
    simp only [snapTime]
    have harg : (down + (pyRound ((t - down) / (60 / bpm / 4)) : ℚ) * (60 / bpm / 4)
          + (swing / 100 - 1/2) * (60 / bpm / 4) - down) / (60 / bpm / 4)
        = (pyRound ((t - down) / (60 / bpm / 4)) : ℚ) + (swing / 100 - 1/2) := by
      field_simp
      ring
    rw [harg, pyRound_int_add hd, if_pos hk]
  · have h2 : snapTime bpm down swing t
        = down + (pyRound ((t - down) / (60 / bpm / 4)) : ℚ) * (60 / bpm / 4) + 0 := by
      simp only [snapTime]
      rw [if_neg hk]
    rw [h2]
    simp only [snapTime]
    have harg : (down + (pyRound ((t - down) / (60 / bpm / 4)) : ℚ) * (60 / bpm / 4)
          + 0 - down) / (60 / bpm / 4)
        = ((pyRound ((t - down) / (60 / bpm / 4)) : ℚ)) := by
      field_simp
      ring
    rw [harg, pyRound_intCast, if_neg hk]

/-- C5: with `bpm > 0`, a downbeat offset, `swing ∈ [0, 100]`,
`strength ∈ [0, 1]` and `subdivision = 4`, the quantizer maps each hit
time to `original * (1 - strength) + snapped * strength`, where the
snapped time adds the swing offset `(swing/100 - 0.5) * step` exactly at
odd step indices (`snapTime`), and the chosen step index is a nearest one:
the snapped step lies within half a step of the hit's offset from the
downbeat. -/
theorem quantize_snaps_and_blends (bpm down swing strength : ℚ) (hits : List DrumHit)
    (hbpm : 0 < bpm) (hsw0 : 0 ≤ swing) (hsw1 : swing ≤ 100)
    (hst0 : 0 ≤ strength) (hst1 : strength ≤ 1) :
    ((quantize_to_grid hits bpm down swing strength 4).1.map (fun h => h.time)
      = hits.map (fun h => h.time * (1 - strength) + snapTime bpm down swing h.time * strength))
    ∧ ∀ h ∈ hits,
        |h.time - down - (pyRound ((h.time - down) / (60 / bpm / 4)) : ℚ) * (60 / bpm / 4)|
          ≤ (60 / bpm / 4) / 2 := by
  constructor
  · simp only [quantize_to_grid, List.map_map]
    apply List.map_congr_left
    intro h _
    simp only [Function.comp]
    exact quantizeHitTime_formula bpm down swing strength h.time
  · intro h _
    have hg : (0 : ℚ) < 60 / bpm / 4 := by positivity
    have e1 : h.time - down - (pyRound ((h.time - down) / (60 / bpm / 4)) : ℚ) * (60 / bpm / 4)
        = ((h.time - down) / (60 / bpm / 4) - (pyRound ((h.time - down) / (60 / bpm / 4)) : ℚ))
            * (60 / bpm / 4) := by
      rw [sub_mul, div_mul_cancel₀ _ hg.ne']
    have e2 : |(h.time - down) / (60 / bpm / 4)
          - (pyRound ((h.time - down) / (60 / bpm / 4)) : ℚ)| ≤ 1/2 := by
      rw [abs_sub_comm]
      exact abs_pyRound_sub_le _
    rw [e1, abs_mul, abs_of_pos hg]
    calc |(h.time - down) / (60 / bpm / 4) - (pyRound ((h.time - down) / (60 / bpm / 4)) : ℚ)|
          * (60 / bpm / 4)
        ≤ 1/2 * (60 / bpm / 4) := mul_le_mul_of_nonneg_right e2 (le_of_lt hg)
      _ = (60 / bpm / 4) / 2 := by ring

theorem quantize_snaps_and_blends_witness :
    ((0:ℚ) < 120 ∧ (0:ℚ) ≤ 60 ∧ (60:ℚ) ≤ 100 ∧ (0:ℚ) ≤ 1/2 ∧ (1/2:ℚ) ≤ 1)
    ∧ ((quantize_to_grid [⟨1/2, "kick", 9/10, none⟩] 120 (1/10) 60 (1/2) 4).1.map
          (fun h => h.time)
        = [(⟨1/2, "kick", 9/10, none⟩ : DrumHit)].map
            (fun h => h.time * (1 - 1/2) + snapTime 120 (1/10) 60 h.time * (1/2)))
    ∧ |(1/2 : ℚ) - 1/10 - (pyRound (((1/2 : ℚ) - 1/10) / (60 / 120 / 4)) : ℚ) * (60 / 120 / 4)|
        ≤ (60 / 120 / 4) / 2 :=
  ⟨⟨by norm_num, by norm_num, by norm_num, by norm_num, by norm_num⟩,
   (quantize_snaps_and_blends 120 (1/10) 60 (1/2) [⟨1/2, "kick", 9/10, none⟩]
      (by norm_num) (by norm_num) (by norm_num) (by norm_num) (by norm_num)).1,
   by
     have h := (quantize_snaps_and_blends 120 (1/10) 60 (1/2) [⟨1/2, "kick", 9/10, none⟩]
        (by norm_num) (by norm_num) (by norm_num) (by norm_num) (by norm_num)).2
        ⟨1/2, "kick", 9/10, none⟩ (by simp)
     simpa using h⟩

/-- C6 (amended): for `bpm > 0`, any downbeat offset, swing strictly
between 0 and 100 and subdivision 4, re-quantizing a `strength = 1`
quantizer output with the same parameters returns the same hit list. -/
theorem quantize_idempotent_strength_one (bpm down swing : ℚ) (hits : List DrumHit)
    (hbpm : 0 < bpm) (hsw0 : 0 < swing) (hsw1 : swing < 100) :
    (quantize_to_grid (quantize_to_grid hits bpm down swing 1 4).1 bpm down swing 1 4).1
      = (quantize_to_grid hits bpm down swing 1 4).1 := by
  have hQ : ∀ t : ℚ, quantizeHitTime bpm down swing 1 4 t = snapTime bpm down swing t := by
    intro t
    rw [quantizeHitTime_formula]
    ring
  simp only [quantize_to_grid, List.map_map]
  apply List.map_congr_left
  intro h _
  simp [hQ, snapTime_snap bpm down swing hbpm hsw0 hsw1]

/-- C6, counterexample to the claim as stated: at the boundary swing value
100 (allowed by the claim's `swing ∈ [0, 100]`), a hit snapped to an odd
step lands exactly halfway between two grid indices, and the second
quantization pass rounds it to the even neighbour, so the output differs. -/
theorem quantize_idempotence_counterexample :
    (quantize_to_grid (quantize_to_grid [⟨1/4, "kick", 9/10, none⟩] 60 0 100 1 4).1
        60 0 100 1 4).1
      ≠ (quantize_to_grid [⟨1/4, "kick", 9/10, none⟩] 60 0 100 1 4).1 := by
  with_unfolding_all decide

theorem quantize_idempotent_strength_one_witness :
    ((0:ℚ) < 120 ∧ (0:ℚ) < 58 ∧ (58:ℚ) < 100)
    ∧ (quantize_to_grid (quantize_to_grid [⟨3/10, "hihat", 1, none⟩] 120 0 58 1 4).1
          120 0 58 1 4).1
        = (quantize_to_grid [⟨3/10, "hihat", 1, none⟩] 120 0 58 1 4).1 :=
  ⟨⟨by norm_num, by norm_num, by norm_num⟩,
   quantize_idempotent_strength_one 120 0 58 [⟨3/10, "hihat", 1, none⟩]
     (by norm_num) (by norm_num) (by norm_num)⟩

/-- C10: `quantize_to_grid` returns exactly one output hit per input hit
in the same order, preserving the `type`, `confidence` and `features`
fields; only `time` changes. -/
theorem quantize_preserves_fields (hits : List DrumHit) (bpm down swing strength : ℚ)
    (subdivision : ℤ) :
    ((quantize_to_grid hits bpm down swing strength subdivision).1.length = hits.length)
    ∧ ((quantize_to_grid hits bpm down swing strength subdivision).1.map (fun h => h.type)
        = hits.map (fun h => h.type))
    ∧ ((quantize_to_grid hits bpm down swing strength subdivision).1.map (fun h => h.confidence)
        = hits.map (fun h => h.confidence))
    ∧ ((quantize_to_grid hits bpm down swing strength subdivision).1.map (fun h => h.features)
        = hits.map (fun h => h.features)) := by
  refine ⟨?_, ?_, ?_, ?_⟩ <;> simp [quantize_to_grid, List.map_map, Function.comp]

/-! ## Bandpass filter constructor theorem (claim C8) -/

/-- C8: for every waveform and positive sample rate, when
`lowcut ≥ highcut` the bandpass constructor returns its input unchanged
(after normalizing to Nyquist and clamping `low ≥ 0.01`, `high ≤ 0.99`,
the normalized cutoffs still satisfy `low ≥ high`), and the error branch
of the filter construction also returns the input unchanged. -/
theorem bandpass_filter_identity (applyF : List ℚ → Option (List ℚ))
    (data : List ℚ) (lowcut highcut fs : ℚ) (hfs : 0 < fs) :
    (lowcut ≥ highcut → bandpass_filter applyF data lowcut highcut fs = data)
    ∧ (applyF data = none → bandpass_filter applyF data lowcut highcut fs = data) := by
  constructor
  · intro hlh
    have hnyq : (0 : ℚ) < 1/2 * fs := by linarith
    have hdiv : highcut / (1/2 * fs) ≤ lowcut / (1/2 * fs) :=
      (div_le_div_iff_of_pos_right hnyq).mpr hlh
    have hge : min (highcut / (1/2 * fs)) (99/100) ≤ max (lowcut / (1/2 * fs)) (1/100) :=
      le_trans (min_le_left _ _) (le_trans hdiv (le_max_left _ _))
    unfold bandpass_filter
    rw [if_pos hge]
  · intro hnone
    simp only [bandpass_filter]
    split_ifs with h
    · rfl
    · rw [hnone]

theorem bandpass_filter_identity_witness :
    ((0:ℚ) < 44100 ∧ (200:ℚ) ≥ 100)
    ∧ bandpass_filter (fun _ => none) [1, 2, 3] 200 100 44100 = [1, 2, 3] :=
  ⟨⟨by norm_num, by norm_num⟩,
   (bandpass_filter_identity (fun _ => none) [1, 2, 3] 200 100 44100 (by norm_num)).1
     (by norm_num)⟩

/-! ## Half-time correction theorems (claims C1, C2) -/

/-- The specification's description of the corrected beat list: the
original beats with the midpoint inserted between every pair of
consecutive beats. -/
def midpointInterleaved (bs : List ℚ) : List ℚ :=
  match bs with
  | [] => []
  | b :: rest => b :: (bs.zip rest).flatMap (fun p => [(p.1 + p.2) / 2, p.2])

/-- The specification's description of the rebuilt downbeats: entry `i`
carries the `i`-th new beat and `beat_position = (i % ts) + 1`. -/
def downbeatsByIndex (ts : ℤ) (beats : List ℚ) : List Downbeat :=
  beats.enum.map (fun p => ⟨p.2, (p.1 : ℤ) % ts + 1⟩)

theorem interpolateBeats_eq_midpointInterleaved (bs : List ℚ) :
    interpolateBeats bs = midpointInterleaved bs := by
  induction bs with
  | nil => rfl
  | cons b rest ih =>
    cases rest with
    | nil => rfl
    | cons b2 r2 =>
      simp only [interpolateBeats, midpointInterleaved] at ih ⊢
      rw [ih]
      cases r2 <;> simp [midpointInterleaved]

theorem rebuildDownbeats_eq (bs : List ℚ) : rebuildDownbeats bs = downbeatsByIndex 4 bs := rfl

/-- C1: for every fallback beat-tracker result (which always carries
`time_signature = 4`, source line 444) with `bpm < 95` and
`confidence < 0.5`, the corrected result doubles the bpm, interleaves the
beat midpoints, rebuilds downbeats by `beat_position = (i % ts) + 1` over
the new beats, keeps the time signature, and caps the confidence at 0.7;
Rule A's gate passes and its condition holds at
`(bpm, conf) = (94.999, 0.499)` and its condition fails at `(95.0, 0.5)`. -/
theorem half_time_ruleA (sr : ℤ) (dur : ℚ) (cnt : ℕ) (r : BeatResult)
    (hts : r.time_signature = 4) (hb : r.bpm < 95) (hc : r.bpm_confidence < 1/2) :
    ((correct_half_time_spectral sr dur cnt r).bpm = 2 * r.bpm
      ∧ (correct_half_time_spectral sr dur cnt r).beats = midpointInterleaved r.beats
      ∧ (correct_half_time_spectral sr dur cnt r).downbeats
          = downbeatsByIndex r.time_signature (correct_half_time_spectral sr dur cnt r).beats
      ∧ (correct_half_time_spectral sr dur cnt r).bpm_confidence ≤ 7/10
      ∧ (correct_half_time_spectral sr dur cnt r).time_signature = r.time_signature)
    ∧ (halfTimeGate (94999/1000) (499/1000) = false
      ∧ ruleACond (94999/1000) (499/1000) = true
      ∧ ruleACond 95 (1/2) = false) := by
  have hgate : halfTimeGate r.bpm r.bpm_confidence = false := by
    simp only [halfTimeGate, Bool.or_eq_false_iff, decide_eq_false_iff_not, not_le, not_lt]
    constructor
    · linarith
    · linarith
  have hra : ruleACond r.bpm r.bpm_confidence = true := by
    simp only [ruleACond, Bool.and_eq_true, decide_eq_true_eq]
    exact ⟨hb, hc⟩
  have hres : correct_half_time_spectral sr dur cnt r = ruleAResult r := by
    unfold correct_half_time_spectral
    rw [hgate, hra]
    simp
  constructor
  · rw [hres]
    unfold ruleAResult
    refine ⟨by ring, ?_, ?_, ?_, rfl⟩
    · exact interpolateBeats_eq_midpointInterleaved r.beats
    · rw [hts]
      exact rebuildDownbeats_eq _
    · exact min_le_right _ _
  · refine ⟨?_, ?_, ?_⟩ <;> with_unfolding_all decide

theorem half_time_ruleA_witness :
    ((⟨80, 3/10, [0, 1], [⟨0, 1⟩], 4⟩ : BeatResult).time_signature = 4
      ∧ (⟨80, 3/10, [0, 1], [⟨0, 1⟩], 4⟩ : BeatResult).bpm < 95
      ∧ (⟨80, 3/10, [0, 1], [⟨0, 1⟩], 4⟩ : BeatResult).bpm_confidence < 1/2)
    ∧ (correct_half_time_spectral 44100 4 0 ⟨80, 3/10, [0, 1], [⟨0, 1⟩], 4⟩).bpm
        = 2 * (⟨80, 3/10, [0, 1], [⟨0, 1⟩], 4⟩ : BeatResult).bpm
    ∧ (correct_half_time_spectral 44100 4 0 ⟨80, 3/10, [0, 1], [⟨0, 1⟩], 4⟩).beats
        = [0, 1/2, 1] :=
  ⟨⟨rfl, by norm_num, by norm_num⟩,
   (half_time_ruleA 44100 4 0 ⟨80, 3/10, [0, 1], [⟨0, 1⟩], 4⟩ rfl
      (by norm_num) (by norm_num)).1.1,
   by with_unfolding_all decide⟩

/-- C2 (amended): results that pass the skip gate (`bpm ≥ 100` or
`confidence > 0.7`) are returned unchanged; otherwise, when Rule A does
not fire, Rule B doubles the bpm and beats exactly as Rule A does —
precisely when the detected onset count exceeds
`1.5 * (expected + 1)`, where `expected` is 8 onsets per bar over the
track's bars at the current BPM (the source divides by `expected + 1`,
not `expected`). -/
theorem half_time_ruleB (sr : ℤ) (dur : ℚ) (cnt : ℕ) (r : BeatResult)
    (hsr : sr = 44100) (hbpm : 0 < r.bpm) (hdur : 0 ≤ dur) :
    (halfTimeGate r.bpm r.bpm_confidence = true → correct_half_time_spectral sr dur cnt r = r)
    ∧ (r.bpm < 100 → r.bpm_confidence ≤ 7/10 →
        ruleACond r.bpm r.bpm_confidence = false →
        (correct_half_time_spectral sr dur cnt r
            = if (3:ℚ)/2 * (dur / (60 / r.bpm * 4) * 8 + 1) < (cnt : ℚ)
              then ruleBResult r else r)
          ∧ (ruleBResult r).bpm = (ruleAResult r).bpm
          ∧ (ruleBResult r).beats = (ruleAResult r).beats
          ∧ (ruleBResult r).downbeats = (ruleAResult r).downbeats
          ∧ (ruleBResult r).bpm = 2 * r.bpm
          ∧ (ruleBResult r).beats = midpointInterleaved r.beats) := by
  constructor
  · intro hg
    unfold correct_half_time_spectral
    rw [hg]
    simp
  · intro h100 h07 hra
    have hgate : halfTimeGate r.bpm r.bpm_confidence = false := by
      simp only [halfTimeGate, Bool.or_eq_false_iff, decide_eq_false_iff_not, not_le, not_lt]
      exact ⟨h100, h07⟩
    have hE : (0:ℚ) < dur / (60 / r.bpm * 4) * 8 + 1 := by
      have h1 : (0:ℚ) < 60 / r.bpm * 4 := by positivity
      have h2 : (0:ℚ) ≤ dur / (60 / r.bpm * 4) * 8 := by positivity
      linarith
    refine ⟨?_, rfl, rfl, rfl, mul_comm r.bpm 2, interpolateBeats_eq_midpointInterleaved r.beats⟩
    unfold correct_half_time_spectral
    rw [hgate, hra]
    subst hsr
    simp only [Bool.false_eq_true, if_false]
    rw [if_neg (by push_cast; norm_num)]
    simp only [gt_iff_lt, lt_div_iff hE]

/-- C2, counterexample to the claim as stated: at `bpm = 60`,
`confidence = 0.6`, a 4-second track has `expected = 8`, so by the claim
an onset count of 13 (` > 1.5 × 8 = 12`) must trigger the doubling — but
the source compares `13 / (8 + 1) ≈ 1.44` against 1.5 and leaves the
result unchanged. -/
theorem half_time_ruleB_counterexample :
    ((3:ℚ)/2 * ((4:ℚ) / (60 / (60:ℚ) * 4) * 8) < (13:ℚ))
    ∧ correct_half_time_spectral 44100 4 13 ⟨60, 6/10, [0, 2], [], 4⟩
        = ⟨60, 6/10, [0, 2], [], 4⟩
    ∧ (ruleBResult ⟨60, 6/10, [0, 2], [], 4⟩).bpm
        ≠ (⟨60, 6/10, [0, 2], [], 4⟩ : BeatResult).bpm := by
  refine ⟨by norm_num, ?_, by with_unfolding_all decide⟩
  with_unfolding_all decide

theorem half_time_ruleB_witness :
    correct_half_time_spectral 44100 4 100 ⟨60, 6/10, [0, 2], [], 4⟩
      = ruleBResult ⟨60, 6/10, [0, 2], [], 4⟩ := by
  have h := (half_time_ruleB 44100 4 100 ⟨60, 6/10, [0, 2], [], 4⟩ rfl
      (by norm_num) (by norm_num)).2 (by norm_num) (by norm_num)
      (by with_unfolding_all decide)
  exact h.1.trans (if_pos (by norm_num))

/-! ## Swing estimator theorems (claim C7) -/

theorem range_flatMap_pairs {α : Type} (f : ℚ → ℚ → List α) (beats : List ℚ) :
    (List.range (beats.length - 1)).flatMap
        (fun i => f (beats.getD i 0) (beats.getD (i + 1) 0))
      = (beats.zip beats.tail).flatMap (fun p => f p.1 p.2) := by
  induction beats with
  | nil => simp
  | cons a rest ih =>
    cases rest with
    | nil => simp
    | cons b r2 =>
      have hlen : (a :: b :: r2 : List ℚ).length - 1 = r2.length + 1 := by simp
      rw [hlen, List.range_succ_eq_map, List.flatMap_cons, List.flatMap_map]
      simp only [List.getD_cons_zero, List.getD_cons_succ, List.tail_cons, List.zip_cons_cons,
        List.flatMap_cons]
      have hlen2 : (b :: r2 : List ℚ).length - 1 = r2.length := by simp
      rw [hlen2] at ih
      simp only [List.getD_cons_succ, List.tail_cons] at ih
      rw [ih]

theorem swingRatios_eq_zip (hitTimes : List ℚ) (bd : ℚ) (beats : List ℚ) :
    swingRatios hitTimes beats bd
      = (beats.zip beats.tail).flatMap (fun p => swingBody hitTimes bd p.1 p.2) := by
  unfold swingRatios
  exact range_flatMap_pairs (swingBody hitTimes bd) beats

/-- The swing estimator as the specification describes it (with the two
amendments the source forces): positions are measured in units of the
median beat interval, and the 50 default also covers fewer than 4 hits or
fewer than 2 beats. -/
def swingSpec (hits : List DrumHit) (beats : List ℚ) : ℚ :=
  if hits.length < 4 ∨ beats.length < 2 then 50
  else
    let fractions := (beats.zip beats.tail).flatMap (fun p =>
      swingBody (hits.map (fun h => h.time)) (median (diffs beats)) p.1 p.2)
    if fractions.length < 2 then 50
    else max 40 (min 75 (median fractions))

/-- C7 (amended): `detect_swing` collects, over each pair of consecutive
beats, the fractional position (in units of the median beat interval) of
each hit in that interval whose position lies strictly in (0.35, 0.75),
returns the median of those fractions as a percentage clamped to
[40, 75], and returns 50 when fewer than two offbeat fractions exist or
when there are fewer than 4 hits or fewer than 2 beats; the result always
lies in [40, 75]. -/
theorem detect_swing_spec (hits : List DrumHit) (beats : List ℚ) :
    detect_swing hits beats = swingSpec hits beats
    ∧ 40 ≤ detect_swing hits beats ∧ detect_swing hits beats ≤ 75 := by
  have heq : detect_swing hits beats = swingSpec hits beats := by
    simp only [detect_swing, swingSpec, swingRatios_eq_zip]
  have hb : 40 ≤ detect_swing hits beats ∧ detect_swing hits beats ≤ 75 := by
    simp only [detect_swing]
    split_ifs with h1 h2
    · norm_num
    · norm_num
    · exact ⟨le_max_left _ _, max_le (by norm_num) (min_le_left _ _)⟩
  exact ⟨heq, hb.1, hb.2⟩

/-- The estimator exactly as claim C7 states it: fractional positions
within each beat interval (normalized by the interval's own length), with
50 returned only when fewer than two offbeat fractions exist. -/
def claimedSwing (hits : List DrumHit) (beats : List ℚ) : ℚ :=
  let fractions := (beats.zip beats.tail).flatMap (fun p =>
    ((hits.map (fun h => h.time)).filter (fun t => p.1 ≤ t && t < p.2)).filterMap (fun t =>
      if 7/20 < (t - p.1) / (p.2 - p.1) ∧ (t - p.1) / (p.2 - p.1) < 3/4
      then some ((t - p.1) / (p.2 - p.1) * 100) else none))
  if fractions.length < 2 then 50
  else max 40 (min 75 (median fractions))

/-- C7, counterexample to the claim as stated: three offbeat hits at
position 0.6 of three unit beat intervals give three collected fractions,
so the claim prescribes their median 60; the source returns 50 because it
first requires at least 4 hits (line 1487). -/
theorem detect_swing_counterexample :
    detect_swing [⟨6/10, "hihat", 1, none⟩, ⟨16/10, "hihat", 1, none⟩,
        ⟨26/10, "hihat", 1, none⟩] [0, 1, 2, 3] = 50
    ∧ claimedSwing [⟨6/10, "hihat", 1, none⟩, ⟨16/10, "hihat", 1, none⟩,
        ⟨26/10, "hihat", 1, none⟩] [0, 1, 2, 3] = 60 := by
  constructor
  · with_unfolding_all decide
  · with_unfolding_all decide

/-! ## Pattern filter theorems (claim C9) -/

/-- C9: the pattern filter only removes hits — its output is a sublist of
its input (so every output hit is a member of the pre-filter hit set) —
and in the stage-7 wrapper the reported `hits_after_filter` counter never
exceeds `hits_before_filter`, whether or not the filter runs. -/
theorem pattern_filter_only_removes (expectedPositions : String → Option String → List ℚ)
    (hits : List DrumHit) (apply_pattern_filter : Bool) (downbeats : List Downbeat)
    (bpm : ℚ) (time_signature : ℤ) (genre : Option String) (tolerance_ms : ℚ)
    (downbeat_time : ℚ) :
    ((analyzeFilterStage expectedPositions hits apply_pattern_filter downbeats bpm
        time_signature genre tolerance_ms).1).Sublist hits
    ∧ (analyzeFilterStage expectedPositions hits apply_pattern_filter downbeats bpm
        time_signature genre tolerance_ms).2.2
      ≤ (analyzeFilterStage expectedPositions hits apply_pattern_filter downbeats bpm
        time_signature genre tolerance_ms).2.1
    ∧ (filter_hits_by_pattern expectedPositions hits bpm downbeat_time time_signature
        genre tolerance_ms).Sublist hits := by
  have hsub : ∀ dt : ℚ, (filter_hits_by_pattern expectedPositions hits bpm dt
      time_signature genre tolerance_ms).Sublist hits := by
    intro dt
    simp only [filter_hits_by_pattern]
    split_ifs with h
    · exact List.nil_sublist hits
    · exact List.filter_sublist hits
  refine ⟨?_, ?_, hsub downbeat_time⟩
  · simp only [analyzeFilterStage]
    split_ifs with h
    · exact hsub _
    · exact List.Sublist.refl hits
  · simp only [analyzeFilterStage]
    split_ifs with h
    · exact (hsub _).length_le
    · exact le_refl _

/-! ## Stable-sort lemmas for `pysort` -/

theorem mem_insort {key : α → ℚ} {a x : α} {l : List α} :
    x ∈ insort key a l ↔ x = a ∨ x ∈ l := by
  induction l with
  | nil => simp [insort]
  | cons b bs ih =>
    simp only [insort]
    split_ifs with h
    · simp only [List.mem_cons, ih]
      tauto
    · simp only [List.mem_cons]

theorem insort_perm (key : α → ℚ) (a : α) (l : List α) : (insort key a l).Perm (a :: l) := by
  induction l with
  | nil => exact List.Perm.refl _
  | cons b bs ih =>
    simp only [insort]
    split_ifs with h
    · exact (ih.cons b).trans (List.Perm.swap a b bs)
    · exact List.Perm.refl _

theorem pysort_perm (key : α → ℚ) (l : List α) : (pysort key l).Perm l := by
  have haux : ∀ (l acc : List α),
      (l.foldl (fun acc a => insort key a acc) acc).Perm (acc ++ l) := by
    intro l
    induction l with
    | nil => intro acc; simp
    | cons a as ih =>
      intro acc
      simp only [List.foldl_cons]
      have h1 := ih (insort key a acc)
      have h2 : (insort key a acc ++ as).Perm (a :: (acc ++ as)) :=
        (insort_perm key a acc).append_right as
      exact (h1.trans h2).trans List.perm_middle.symm
  simpa using haux l []

theorem insort_sorted {key : α → ℚ} {a : α} {l : List α}
    (h : l.Pairwise (fun x y => key x ≤ key y)) :
    (insort key a l).Pairwise (fun x y => key x ≤ key y) := by
  induction l with
  | nil => simp [insort]
  | cons b bs ih =>
    rcases List.pairwise_cons.mp h with ⟨hb, hbs⟩
    simp only [insort]
    split_ifs with hle
    · refine List.pairwise_cons.mpr ⟨?_, ih hbs⟩
      intro y hy
      rcases mem_insort.mp hy with rfl | hy2
      · exact hle
      · exact hb y hy2
    · refine List.pairwise_cons.mpr ⟨?_, h⟩
      intro y hy
      rcases List.mem_cons.mp hy with rfl | hy2
      · exact le_of_not_le hle
      · exact le_trans (le_of_not_le hle) (hb y hy2)

theorem pysort_sorted (key : α → ℚ) (l : List α) :
    (pysort key l).Pairwise (fun x y => key x ≤ key y) := by
  have haux : ∀ (l acc : List α), acc.Pairwise (fun x y => key x ≤ key y) →
      (l.foldl (fun acc a => insort key a acc) acc).Pairwise (fun x y => key x ≤ key y) := by
    intro l
    induction l with
    | nil => intro acc h; simpa using h
    | cons a as ih => intro acc h; exact ih _ (insort_sorted h)
  exact haux l [] List.Pairwise.nil

/-- Stability of `insort`: inserting `a` after all elements with key
`≤ key a` preserves the tie-breaking relation
`key x = key y → R x y` when every element of the (key-sorted) list
already relates to `a`. -/
theorem insort_pairwise {key : α → ℚ} {R : α → α → Prop} {a : α} {l : List α}
    (hsort : l.Pairwise (fun x y => key x ≤ key y))
    (hP : l.Pairwise (fun x y => key x = key y → R x y))
    (ha : ∀ x ∈ l, key x = key a → R x a) :
    (insort key a l).Pairwise (fun x y => key x = key y → R x y) := by
  induction l with
  | nil => simp [insort]
  | cons b bs ih =>
    rcases List.pairwise_cons.mp hsort with ⟨hsb, hsbs⟩
    rcases List.pairwise_cons.mp hP with ⟨hPb, hPbs⟩
    simp only [insort]
    split_ifs with hle
    · refine List.pairwise_cons.mpr
        ⟨?_, ih hsbs hPbs (fun x hx => ha x (List.mem_cons_of_mem b hx))⟩
      intro y hy
      rcases mem_insort.mp hy with rfl | hy2
      · exact ha b (List.mem_cons_self b bs)
      · exact hPb y hy2
    · refine List.pairwise_cons.mpr ⟨?_, hP⟩
      intro y hy heq
      have hlt : key a < key b := lt_of_not_le hle
      rcases List.mem_cons.mp hy with rfl | hy2
      · exact absurd heq (ne_of_lt hlt)
      · exact absurd heq (ne_of_lt (lt_of_lt_of_le hlt (hsb y hy2)))

/-- Stability of `pysort`: a stable sort by key preserves any pairwise
relation guarded by key equality (equal-key elements are never swapped). -/
theorem pysort_pairwise (key : α → ℚ) (R : α → α → Prop) (l : List α)
    (hl : l.Pairwise (fun x y => key x = key y → R x y)) :
    (pysort key l).Pairwise (fun x y => key x = key y → R x y) := by
  have haux : ∀ (l acc : List α),
      acc.Pairwise (fun x y => key x ≤ key y) →
      acc.Pairwise (fun x y => key x = key y → R x y) →
      (∀ x ∈ acc, ∀ y ∈ l, key x = key y → R x y) →
      l.Pairwise (fun x y => key x = key y → R x y) →
      (l.foldl (fun acc a => insort key a acc) acc).Pairwise
        (fun x y => key x = key y → R x y) := by
    intro l
    induction l with
    | nil => intro acc _ hP _ _; simpa using hP
    | cons a as ih =>
      intro acc hs hP hcross hl2
      rcases List.pairwise_cons.mp hl2 with ⟨hla, hlas⟩
      simp only [List.foldl_cons]
      refine ih (insort key a acc) (insort_sorted hs)
        (insort_pairwise hs hP (fun x hx => hcross x hx a (List.mem_cons_self a as)))
        ?_ hlas
      intro x hx y hy
      rcases mem_insort.mp hx with rfl | hx2
      · exact hla y hy
      · exact hcross x hx2 y (List.mem_cons_of_mem a hy)
  exact haux l [] List.Pairwise.nil List.Pairwise.nil (by simp) hl

theorem mem_pysort {key : α → ℚ} {l : List α} {x : α} : x ∈ pysort key l ↔ x ∈ l :=
  (pysort_perm key l).mem_iff

/-! ## Hit ordering theorems (claim C3) -/

/-- The position of a drum type in the detection dictionary order. -/
def drumIdx (d : String) : ℕ := drumOrder.indexOf d

/-- The ordering claimed by the specification: hits strictly monotone in
time, ties broken by the lexicographic order of the drum-type names. -/
def strictTimeLexOrdered (hits : List DrumHit) : Prop :=
  hits.Pairwise (fun a b => a.time < b.time ∨ (a.time = b.time ∧ a.type.data < b.type.data))

theorem sortedDedup_sorted_lt (l : List ℚ) : (sortedDedup l).Pairwise (· < ·) := by
  have hs := pysort_sorted (id : ℚ → ℚ) l.dedup
  have hnd : (pysort id l.dedup).Nodup :=
    ((pysort_perm id l.dedup).nodup_iff).mpr (List.nodup_dedup l)
  exact (hs.and hnd).imp (fun h => lt_of_le_of_ne h.1 h.2)

theorem collectHits_pairwise (raw : String → List ℚ) (conf : ℚ) :
    (collectHits (fun d => sortedDedup (raw d)) conf).Pairwise
      (fun a b => a.time = b.time → drumIdx a.type < drumIdx b.type) := by
  unfold collectHits
  rw [List.pairwise_flatMap]
  constructor
  · intro d _
    refine List.Pairwise.map _ ?_ (sortedDedup_sorted_lt (raw d))
    intro t1 t2 hlt heq
    exact absurd heq (ne_of_lt hlt)
  · have hord : drumOrder.Pairwise (fun d1 d2 => drumIdx d1 < drumIdx d2) := by
      unfold drumOrder drumIdx
      decide
    refine hord.imp ?_
    intro d1 d2 hidx x hx y hy _heq
    rcases List.mem_map.mp hx with ⟨t1, _, rfl⟩
    rcases List.mem_map.mp hy with ⟨t2, _, rfl⟩
    exact hidx

/-- C3 (amended): the assembled hits of `analyze_rhythm` are sorted
non-decreasingly in time, and hits with identical timestamps appear in the
fixed detection-dictionary order kick, snare, hihat, clap, tom, perc (the
source's stable sort uses only the time as key, so insertion order — not
lexicographic name order — breaks ties). -/
theorem analyze_rhythm_hits_ordered (raw : String → List ℚ) (conf : ℚ) :
    (analyze_rhythm_hits raw conf).Pairwise
      (fun a b => a.time < b.time ∨ (a.time = b.time ∧ drumIdx a.type < drumIdx b.type)) := by
  unfold analyze_rhythm_hits
  have h1 := pysort_sorted (fun h : DrumHit => h.time)
    (collectHits (fun d => sortedDedup (raw d)) conf)
  have h2 := pysort_pairwise (fun h : DrumHit => h.time)
    (fun a b => drumIdx a.type < drumIdx b.type) _ (collectHits_pairwise raw conf)
  refine (h1.and h2).imp ?_
  intro a b hab
  rcases lt_or_eq_of_le hab.1 with hlt | heq
  · exact Or.inl hlt
  · exact Or.inr ⟨heq, hab.2 heq⟩

/-- C3, counterexample to the claim as stated: when a snare and a clap are
detected at the same beat time (the source emits both at beats 2 and 4
when their thresholds pass), the sorted output contains two hits with
identical timestamps — so it is not strictly monotone — and the tie stands
in detection order (snare before clap), not lexicographic name order. -/
theorem analyze_rhythm_hits_counterexample :
    ¬ strictTimeLexOrdered
      (analyze_rhythm_hits (fun d => if d = "snare" ∨ d = "clap" then [1] else []) (7/10)) := by
  unfold strictTimeLexOrdered
  with_unfolding_all decide

/-! ## Adaptive rescan theorems (claim C4) -/

theorem emit_far {X T : ℚ} (hfar : ¬ |T - X| < 3/100) :
    |roundTo 4 X - T| ≥ 3/100 - 1/20000 := by
  have h1 : 3/100 ≤ |T - X| := not_lt.mp hfar
  have h2 : |roundTo 4 X - X| ≤ 1 / (2 * 10 ^ 4) := abs_roundTo_sub_le 4 X
  have h3 : (1:ℚ) / (2 * 10 ^ 4) = 1/20000 := by norm_num
  have h4 : |T - X| ≤ |T - roundTo 4 X| + |roundTo 4 X - X| :=
    (congrArg abs (sub_add_sub_cancel T (roundTo 4 X) X)).symm.le.trans (abs_add _ _)
  have h5 : |roundTo 4 X - T| = |T - roundTo 4 X| := abs_sub_comm _ _
  linarith

theorem emit_branch {st : List ℚ × List AdaptiveHit} {T X : ℚ} {hit : AdaptiveHit}
    (hT : T ∈ st.1)
    (h2 : ¬(st.1.any fun t => decide (|t - X| < 3/100)) = true)
    (htime : hit.time = roundTo 4 X) :
    T ∈ (roundTo 3 X :: st.1, st.2 ++ [hit]).1
    ∧ ∀ h ∈ (roundTo 3 X :: st.1, st.2 ++ [hit]).2,
        h ∈ st.2 ∨ |h.time - T| ≥ 3/100 - 1/20000 := by
  refine ⟨List.mem_cons_of_mem _ hT, ?_⟩
  intro h hh
  rcases List.mem_append.mp hh with hh2 | hh3
  · exact Or.inl hh2
  · rw [List.mem_singleton.mp hh3]
    right
    rw [htime]
    exact emit_far (fun hcon => h2 (List.any_eq_true.mpr ⟨T, hT, decide_eq_true hcon⟩))

theorem adaptiveStep_invariant (ctx : AdaptiveCtx) (st : List ℚ × List AdaptiveHit)
    (c : ℤ × String × ℕ) (T : ℚ) (hT : T ∈ st.1) :
    T ∈ (adaptiveStep ctx st c).1
    ∧ ∀ h ∈ (adaptiveStep ctx st c).2,
        h ∈ st.2 ∨ |h.time - T| ≥ 3/100 - 1/20000 := by
  simp only [adaptiveStep]
  split_ifs with h1 h2 h3 h4 h5
  · exact ⟨hT, fun h hh => Or.inl hh⟩
  · exact ⟨hT, fun h hh => Or.inl hh⟩
  · exact emit_branch hT h2 rfl
  · exact ⟨hT, fun h hh => Or.inl hh⟩
  · exact emit_branch hT h2 rfl
  · exact ⟨hT, fun h hh => Or.inl hh⟩

theorem adaptiveFold_invariant (ctx : AdaptiveCtx) (cands : List (ℤ × String × ℕ)) :
    ∀ (st : List ℚ × List AdaptiveHit) (T : ℚ), T ∈ st.1 →
      ∀ h ∈ (cands.foldl (adaptiveStep ctx) st).2,
        h ∈ st.2 ∨ |h.time - T| ≥ 3/100 - 1/20000 := by
  induction cands with
  | nil => intro st T hT h hh; exact Or.inl hh
  | cons c cs ih =>
    intro st T hT h hh
    simp only [List.foldl_cons] at hh
    rcases adaptiveStep_invariant ctx st c T hT with ⟨hT2, hstep⟩
    rcases ih (adaptiveStep ctx st c) T hT2 h hh with hmem | hfar
    · exact hstep h hmem
    · exact Or.inr hfar

/-- C4 (amended): the adaptive rescan suppresses candidates within 30 ms
of the 3-decimal-rounded time of any recorded hit (regardless of drum
type), so every returned new hit lies at distance at least
`0.03 - 0.00005` from the rounded time of every pre-existing hit — the
extra `0.00005` slack comes from the emitted time itself being rounded to
4 decimals after the distance check. -/
theorem detect_adaptive_no_duplicates (barRms : ℕ → ℚ) (energyAt : String → ℚ → ℚ)
    (bpm downbeat_offset : ℚ) (time_signature : ℤ) (existing : List (ℚ × String))
    (target : TargetBars) (sensitivity_boost duration : ℚ) :
    ∀ h ∈ detect_adaptive barRms energyAt bpm downbeat_offset time_signature existing
        target sensitivity_boost duration,
      ∀ e ∈ existing, |h.time - roundTo 3 e.1| ≥ 3/100 - 1/20000 := by
  intro h hh e he
  simp only [detect_adaptive] at hh
  rw [mem_pysort] at hh
  have hT : roundTo 3 e.1 ∈ existing.map (fun e => roundTo 3 e.1) :=
    List.mem_map_of_mem _ he
  rcases adaptiveFold_invariant _ _ _ _ hT h hh with hmem | hfar
  · exact absurd hmem (List.not_mem_nil h)
  · exact hfar

/-- The property claim C4 states: no returned hit lies within 30 ms of a
pre-existing hit of the same drum type. -/
def adaptiveRespects30ms (newHits : List AdaptiveHit) (existing : List (ℚ × String)) : Prop :=
  ∀ h ∈ newHits, ∀ e ∈ existing, h.type = e.2 → |h.time - e.1| ≥ 3/100

set_option maxRecDepth 400000 in
/-- C4, counterexample to the claim as stated: an existing kick at
1.0004 s is recorded as its rounded time 1.000 s, so a kick candidate at
1.0302 s passes the 30 ms check (distance 0.0302 from 1.000) and is
emitted — yet its true distance to the existing kick is 0.0298 s < 30 ms. -/
theorem detect_adaptive_counterexample :
    ¬ adaptiveRespects30ms
      (detect_adaptive (fun _ => 1) (fun _ _ => 1) 120 (10302/10000) 4
        [(10004/10000, "kick")] TargetBars.allBars 2 (104/100))
      [(10004/10000, "kick")] := by
  unfold adaptiveRespects30ms
  with_unfolding_all decide

set_option maxRecDepth 400000 in
theorem detect_adaptive_no_duplicates_witness :
    ((⟨5151/5000, "kick", 1, 1, 0, 1, 1/100, false⟩ : AdaptiveHit)
        ∈ detect_adaptive (fun _ => 1) (fun _ _ => 1) 120 (10302/10000) 4
            [(10004/10000, "kick")] TargetBars.allBars 2 (104/100))
    ∧ |(5151/5000 : ℚ) - roundTo 3 (10004/10000)| ≥ 3/100 - 1/20000 := by
  have hlist : detect_adaptive (fun _ => 1) (fun _ _ => 1) 120 (10302/10000) 4
          [(10004/10000, "kick")] TargetBars.allBars 2 (104/100)
      = [(⟨5151/5000, "kick", 1, 1, 0, 1, 1/100, false⟩ : AdaptiveHit)] := by
    with_unfolding_all rfl
  have hmem : (⟨5151/5000, "kick", 1, 1, 0, 1, 1/100, false⟩ : AdaptiveHit)
      ∈ detect_adaptive (fun _ => 1) (fun _ _ => 1) 120 (10302/10000) 4
          [(10004/10000, "kick")] TargetBars.allBars 2 (104/100) := by
    rw [hlist]
    exact List.mem_singleton_self _
  refine ⟨hmem, ?_⟩
  have h := detect_adaptive_no_duplicates (fun _ => 1) (fun _ _ => 1) 120 (10302/10000) 4
      [(10004/10000, "kick")] TargetBars.allBars 2 (104/100) _ hmem
      (10004/10000, "kick") (by simp)
  simpa using h

end MusicAnalyzer
